import Mathlib

/-!
Verification of the `membuffer` crate (`src/lib.rs`): a compact binary
container format with a writer/reader pair.  The embedding below models the
byte-level behaviour of the library on a little-endian 64-bit machine (the
crate uses `NativeEndian` and `usize` arithmetic; all integers are modelled
as `Nat` with explicit `% 2^32` / `% 2^64` where the Rust code truncates,
wraps or sign-extends).  Byte buffers are `List Nat` with every element
below 256.
-/

namespace Membuffer

/-- Little-endian 4-byte encoding of an `i32`/`u32` bit pattern, as produced
by `WriteBytesExt::write_i32::<NativeEndian>` in `serialize_i32_to`. -/
def u32le (n : Nat) : List Nat :=
  [n % 256, n / 256 % 256, n / 65536 % 256, n / 16777216 % 256]

/-- Little-endian 8-byte encoding of a `u64` bit pattern, as produced by
`std::mem::transmute::<u64,[u8;8]>` on a little-endian machine. -/
def u64le (n : Nat) : List Nat :=
  [n % 256, n / 256 % 256, n / 65536 % 256, n / 16777216 % 256,
   n / 4294967296 % 256, n / 1099511627776 % 256,
   n / 281474976710656 % 256, n / 72057594037927936 % 256]

/-- Reading a native-endian 32-bit integer from the front of a byte slice
(`ReadBytesExt::read_i32::<NativeEndian>` / `NativeEndian::read_i32`); the
result is the `u32` bit pattern of the read `i32`.  On fewer than 4 bytes the
Rust call panics; that case is unreachable in every use modelled here. -/
def readU32 : List Nat → Nat
  | b0 :: b1 :: b2 :: b3 :: _ => b0 + 256 * b1 + 65536 * b2 + 16777216 * b3
  | _ => 0

/-- Reading a native-endian 64-bit integer from the front of a byte slice
(`NativeEndian::read_u64`).  Fewer than 8 bytes panics in Rust; unreachable
in the uses modelled here. -/
def readU64 : List Nat → Nat
  | b0 :: b1 :: b2 :: b3 :: b4 :: b5 :: b6 :: b7 :: _ =>
      b0 + 256 * b1 + 65536 * b2 + 16777216 * b3 + 4294967296 * b4 +
      1099511627776 * b5 + 281474976710656 * b6 + 72057594037927936 * b7
  | _ => 0

/-- The `as usize` cast applied to an `i32` (given by its `u32` bit pattern):
sign extension to 64 bits. -/
def signExtend32 (n : Nat) : Nat :=
  if n < 2147483648 then n else n + 18446744069414584320

/-- The enum `MemBufferTypes` from the source. -/
inductive MemBufferTypes
  | Text
  | Integer32
  | VectorU8
  | VectorU32
  | VectorU64
  | MemBuffer
  | LastPreDefienedValue
deriving DecidableEq, Repr

/-- `impl Into<i32> for MemBufferTypes` — the discriminant values. -/
def MemBufferTypes.toI32 : MemBufferTypes → Nat
  | .Text => 0
  | .Integer32 => 1
  | .VectorU8 => 2
  | .VectorU32 => 3
  | .VectorU64 => 4
  | .MemBuffer => 5
  | .LastPreDefienedValue => 6

/-- The enum `MemBufferError` from the source. -/
inductive MemBufferError
  | FieldTypeError (actual expected : Nat)
  | WrongFormat
deriving DecidableEq, Repr

/-- The struct `Position { start, end }` (both `i32`, stored as bit
patterns; the source field `end` is a Lean keyword, rendered `endp`). -/
structure Position where
  start : Nat
  endp : Nat
deriving DecidableEq, Repr

/-- The struct `InternPosition { pos, variable_type }`. -/
structure InternPosition where
  pos : Position
  variable_type : Nat
deriving DecidableEq, Repr

/-- The struct `MemBufferReader` (borrowed slices become lists). -/
structure MemBufferReader where
  offsets : List InternPosition
  data : List Nat
deriving DecidableEq, Repr

/-- The struct `MemBufferWriter { types: Vec<i32>, data: Vec<Vec<u8>> }`. -/
structure MemBufferWriter where
  types : List Nat
  data : List (List Nat)
deriving DecidableEq, Repr

/-- `<&str as MemBufferSerialize>::get_mem_buffer_type()` = `Text`. -/
def get_mem_buffer_type_str : Nat := MemBufferTypes.Text.toI32

/-- `<&String as MemBufferSerialize>::get_mem_buffer_type()` = `Text`. -/
def get_mem_buffer_type_string : Nat := MemBufferTypes.Text.toI32

/-- `<i32 as MemBufferSerialize>::get_mem_buffer_type()` = `Integer32`. -/
def get_mem_buffer_type_i32 : Nat := MemBufferTypes.Integer32.toI32

/-- `<u64 as MemBufferSerialize>::get_mem_buffer_type()`: the source returns
the literal `1021`, not a `MemBufferTypes` discriminant. -/
def get_mem_buffer_type_u64 : Nat := 1021

/-- `<&[u8] as MemBufferSerialize>::get_mem_buffer_type()` = `VectorU8`. -/
def get_mem_buffer_type_vecu8 : Nat := MemBufferTypes.VectorU8.toI32

/-- `<&[u64] as MemBufferSerialize>::get_mem_buffer_type()` = `VectorU64`. -/
def get_mem_buffer_type_vecu64 : Nat := MemBufferTypes.VectorU64.toI32

/-- `<&[u32] as MemBufferSerialize>::get_mem_buffer_type()` = `VectorU32`. -/
def get_mem_buffer_type_vecu32 : Nat := MemBufferTypes.VectorU32.toI32

/-- `<MemBufferWriter as MemBufferSerialize>::get_mem_buffer_type()` =
`MemBuffer`. -/
def get_mem_buffer_type_writer : Nat := MemBufferTypes.MemBuffer.toI32

/-- `to_mem_buffer` for `&str` / `&String`: the UTF-8 bytes themselves. -/
def to_mem_buffer_str (s : List Nat) : List Nat := s

/-- `to_mem_buffer` for `i32` (bit pattern `n`): `transmute::<i32,[u8;4]>`,
little-endian on the modelled machine. -/
def to_mem_buffer_i32 (n : Nat) : List Nat := u32le n

/-- `to_mem_buffer` for `u64`: `transmute::<u64,[u8;8]>`. -/
def to_mem_buffer_u64 (n : Nat) : List Nat := u64le n

/-- `to_mem_buffer` for `&[u8]`: the slice itself. -/
def to_mem_buffer_vecu8 (bs : List Nat) : List Nat := bs

/-- `to_mem_buffer` for `&[u64]`: the element buffer reinterpreted as bytes
(little-endian elements, in order). -/
def to_mem_buffer_vecu64 (l : List Nat) : List Nat := (l.map u64le).flatten

/-- `to_mem_buffer` for `&[u32]`. -/
def to_mem_buffer_vecu32 (l : List Nat) : List Nat := (l.map u32le).flatten

/-- `MemBufferDeserialize for &str`: `from_utf8_unchecked` returns the same
bytes (no validation, no copy). -/
def from_mem_buffer_str (mem : List Nat) : Except MemBufferError (List Nat) :=
  .ok mem

/-- `MemBufferDeserialize for i32`: `NativeEndian::read_i32(mem)`. -/
def from_mem_buffer_i32 (mem : List Nat) : Except MemBufferError Nat :=
  .ok (readU32 mem)

/-- `MemBufferDeserialize for u64`: `NativeEndian::read_u64(mem)`. -/
def from_mem_buffer_u64 (mem : List Nat) : Except MemBufferError Nat :=
  .ok (readU64 mem)

/-- `MemBufferDeserialize for &[u8]`: the slice itself. -/
def from_mem_buffer_vecu8 (mem : List Nat) : Except MemBufferError (List Nat) :=
  .ok mem

/-- Reading `n` consecutive 64-bit little-endian elements (the effect of
`slice::from_raw_parts(mem.as_ptr().cast::<u64>(), n)` on this machine). -/
def readU64s : Nat → List Nat → List Nat
  | 0, _ => []
  | n + 1, bs => readU64 bs :: readU64s n (bs.drop 8)

/-- Reading `n` consecutive 32-bit little-endian elements. -/
def readU32s : Nat → List Nat → List Nat
  | 0, _ => []
  | n + 1, bs => readU32 bs :: readU32s n (bs.drop 4)

/-- `MemBufferDeserialize for &[u64]`: reinterpret the byte slice as
`mem.len() >> 3` elements of `u64`. -/
def from_mem_buffer_vecu64 (mem : List Nat) : Except MemBufferError (List Nat) :=
  .ok (readU64s (mem.length >>> 3) mem)

/-- `MemBufferDeserialize for &[u32]`: reinterpret the byte slice as
`mem.len() >> 2` elements of `u32`. -/
def from_mem_buffer_vecu32 (mem : List Nat) : Except MemBufferError (List Nat) :=
  .ok (readU32s (mem.length >>> 2) mem)

/-- `MemBufferReader::deserialize_i32_from` (result as `u32` bit pattern). -/
def MemBufferReader.deserialize_i32_from (buffer : List Nat) : Nat :=
  readU32 buffer

/-- `MemBufferReader::len`. -/
def MemBufferReader.len (r : MemBufferReader) : Nat := r.offsets.length

/-- `MemBufferReader::payload_len`. -/
def MemBufferReader.payload_len (r : MemBufferReader) : Nat := r.data.length

/-- Parsing `n` header entries of 12 bytes each, the effect of
`slice::from_raw_parts(val[8..].as_ptr().cast::<InternPosition>(), n)` on a
little-endian machine with `InternPosition` = `(start, end, type)`, each a
4-byte integer. -/
def parseOffsets : Nat → List Nat → List InternPosition
  | 0, _ => []
  | n + 1, bs =>
      ⟨⟨readU32 bs, readU32 (bs.drop 4)⟩, readU32 (bs.drop 8)⟩ ::
        parseOffsets n (bs.drop 12)

/-- `MemBufferReader::new`.  `vec_len` and `checksum` are read as `i32` and
cast `as usize` (sign extension); `start` and the checksum comparison are
`usize` arithmetic (wrapping, modelled `% 2^64`);
`size_of::<InternPosition>()` is 12. -/
def MemBufferReader.new (val : List Nat) : Except MemBufferError MemBufferReader :=
  if val.length < 8 then .error .WrongFormat
  else
    let vec_len := signExtend32 (MemBufferReader.deserialize_i32_from val)
    let checksum := signExtend32 (MemBufferReader.deserialize_i32_from (val.drop 4))
    let start := (vec_len * 12 + 8) % 18446744073709551616
    if val.length < start ∨
        (checksum + 0x7AFECAFE) % 18446744073709551616 ≠ vec_len then
      .error .WrongFormat
    else
      .ok ⟨parseOffsets vec_len (val.drop 8), val.drop start⟩

/-- `MemBufferReader::intern_load_entry`, up to the generic decode step: it
looks up the header entry at `key` (out of range panics in Rust; the claims
only use in-range keys), checks the stored type tag against `expected_type`,
and on success returns the payload sub-slice
`data[start as usize .. end as usize]` that `X::from_mem_buffer` receives
(`start > end` or `end > data.len()` panics in Rust; the modelled
`drop`/`take` clamps, and every use below is within bounds). -/
def MemBufferReader.intern_load_entry (r : MemBufferReader) (key : Nat)
    (expected_type : Nat) : Except MemBufferError (List Nat) :=
  let entry := r.offsets.getD key ⟨⟨0, 0⟩, 0⟩
  if entry.variable_type ≠ expected_type then
    .error (.FieldTypeError entry.variable_type expected_type)
  else
    .ok ((r.data.drop (signExtend32 entry.pos.start)).take
      (signExtend32 entry.pos.endp - signExtend32 entry.pos.start))

/-- `load_entry::<&str>`. -/
def MemBufferReader.load_entry_str (r : MemBufferReader) (key : Nat) :
    Except MemBufferError (List Nat) :=
  (r.intern_load_entry key get_mem_buffer_type_str).bind from_mem_buffer_str

/-- `load_entry::<i32>`. -/
def MemBufferReader.load_entry_i32 (r : MemBufferReader) (key : Nat) :
    Except MemBufferError Nat :=
  (r.intern_load_entry key get_mem_buffer_type_i32).bind from_mem_buffer_i32

/-- `load_entry::<u64>`. -/
def MemBufferReader.load_entry_u64 (r : MemBufferReader) (key : Nat) :
    Except MemBufferError Nat :=
  (r.intern_load_entry key get_mem_buffer_type_u64).bind from_mem_buffer_u64

/-- `load_entry::<&[u8]>`. -/
def MemBufferReader.load_entry_vecu8 (r : MemBufferReader) (key : Nat) :
    Except MemBufferError (List Nat) :=
  (r.intern_load_entry key get_mem_buffer_type_vecu8).bind from_mem_buffer_vecu8

/-- `load_entry::<&[u32]>`. -/
def MemBufferReader.load_entry_vecu32 (r : MemBufferReader) (key : Nat) :
    Except MemBufferError (List Nat) :=
  (r.intern_load_entry key get_mem_buffer_type_vecu32).bind from_mem_buffer_vecu32

/-- `load_entry::<&[u64]>`. -/
def MemBufferReader.load_entry_vecu64 (r : MemBufferReader) (key : Nat) :
    Except MemBufferError (List Nat) :=
  (r.intern_load_entry key get_mem_buffer_type_vecu64).bind from_mem_buffer_vecu64

/-- `MemBufferDeserialize for MemBufferReader`: `MemBufferReader::new(mem)`. -/
def from_mem_buffer_reader (mem : List Nat) : Except MemBufferError MemBufferReader :=
  MemBufferReader.new mem

/-- `MemBufferReader::load_recursive_reader`: an `intern_load_entry` with
`MemBufferWriter::get_mem_buffer_type()` as the expected tag, decoded by
`MemBufferReader::new`. -/
def MemBufferReader.load_recursive_reader (r : MemBufferReader) (key : Nat) :
    Except MemBufferError MemBufferReader :=
  (r.intern_load_entry key get_mem_buffer_type_writer).bind from_mem_buffer_reader

/-- `MemBufferWriter::new`. -/
def MemBufferWriter.new : MemBufferWriter := ⟨[], []⟩

/-- `MemBufferWriter::add_entry`, with the generic value already split into
`T::get_mem_buffer_type()` and `val.to_mem_buffer().to_vec()`. -/
def MemBufferWriter.add_entry (w : MemBufferWriter) (tag : Nat)
    (bytes : List Nat) : MemBufferWriter :=
  ⟨w.types ++ [tag], w.data ++ [bytes]⟩

/-- `MemBufferWriter::set_entry` (out-of-range `index` panics in Rust;
`List.set` is the identity there). -/
def MemBufferWriter.set_entry (w : MemBufferWriter) (tag : Nat)
    (bytes : List Nat) (index : Nat) : MemBufferWriter :=
  ⟨w.types.set index tag, w.data.set index bytes⟩

/-- `MemBufferWriter::len`. -/
def MemBufferWriter.len (w : MemBufferWriter) : Nat := w.types.length

/-- The header-entry loop of `MemBufferWriter::finalize`: for each entry,
`offset as i32`, `data[i].len() as i32 + offset as i32` (a wrapping `i32`
add of two `usize → i32` casts) and `types[i]` are written, while `offset`
accumulates the payload lengths in `usize`. -/
def finalizeEntries : List Nat → List (List Nat) → Nat → List Nat
  | t :: ts, d :: ds, offset =>
      u32le (offset % 4294967296) ++
      u32le ((d.length % 4294967296 + offset % 4294967296) % 4294967296) ++
      u32le t ++
      finalizeEntries ts ds (offset + d.length)
  | _, _, _ => []

/-- `MemBufferWriter::finalize`: entry count (`types.len() as i32`), the
checksum `Wrapping(types.len() as i32) - Wrapping(0x7AFECAFE)`, the header
entries, then the payloads concatenated in order. -/
def MemBufferWriter.finalize (w : MemBufferWriter) : List Nat :=
  u32le (w.types.length % 4294967296) ++
  u32le ((w.types.length % 4294967296 + 2231448834) % 4294967296) ++
  finalizeEntries w.types w.data 0 ++
  w.data.flatten

/-- `MemBufferWriter::from`: validate via `MemBufferReader::new`, then copy
each field's tag and payload sub-slice into owned writer state. -/
def MemBufferWriter.fromBytes (raw_memory : List Nat) :
    Except MemBufferError MemBufferWriter :=
  (MemBufferReader.new raw_memory).map fun reader =>
    ⟨reader.offsets.map (fun x => x.variable_type),
     reader.offsets.map (fun x =>
       (reader.data.drop (signExtend32 x.pos.start)).take
         (signExtend32 x.pos.endp - signExtend32 x.pos.start))⟩

/-- A supported field value, covering every `MemBufferSerialize` impl of the
source: string slices, `i32` and `u64` scalars (as bit patterns), byte
slices, `u32`/`u64` slices, and a nested `MemBufferWriter`. -/
inductive FieldValue
  | str (s : List Nat)
  | int32 (n : Nat)
  | uint64 (n : Nat)
  | vecU8 (bs : List Nat)
  | vecU32 (l : List Nat)
  | vecU64 (l : List Nat)
  | nested (w : MemBufferWriter)
deriving DecidableEq, Repr

/-- `T::get_mem_buffer_type()` of a field value's type. -/
def FieldValue.tag : FieldValue → Nat
  | .str _ => get_mem_buffer_type_str
  | .int32 _ => get_mem_buffer_type_i32
  | .uint64 _ => get_mem_buffer_type_u64
  | .vecU8 _ => get_mem_buffer_type_vecu8
  | .vecU32 _ => get_mem_buffer_type_vecu32
  | .vecU64 _ => get_mem_buffer_type_vecu64
  | .nested _ => get_mem_buffer_type_writer

/-- `val.to_mem_buffer()` of a field value (for a nested writer this is its
`finalize()`, per `MemBufferSerialize for MemBufferWriter`). -/
def FieldValue.encode : FieldValue → List Nat
  | .str s => to_mem_buffer_str s
  | .int32 n => to_mem_buffer_i32 n
  | .uint64 n => to_mem_buffer_u64 n
  | .vecU8 bs => to_mem_buffer_vecu8 bs
  | .vecU32 l => to_mem_buffer_vecu32 l
  | .vecU64 l => to_mem_buffer_vecu64 l
  | .nested w => w.finalize

/-- `add_entry(v)` for a typed field value. -/
def MemBufferWriter.add_value (w : MemBufferWriter) (v : FieldValue) :
    MemBufferWriter :=
  w.add_entry v.tag v.encode

/-- Sum of the lengths of a list of byte buffers. -/
def sumLen (ds : List (List Nat)) : Nat := (ds.map List.length).sum

/-- Well-formedness of a writer state as reachable in Rust: the two parallel
vectors have equal length, every stored type tag is an `i32` bit pattern,
every payload is made of bytes, the entry count fits a non-negative `i32`,
and the total payload size fits a non-negative `i32` (so no narrowing cast
in `finalize` wraps). -/
def writerWf (w : MemBufferWriter) : Prop :=
  w.types.length = w.data.length ∧
  w.types.length < 2147483648 ∧
  (∀ t ∈ w.types, t < 4294967296) ∧
  (∀ d ∈ w.data, ∀ b ∈ d, b < 256) ∧
  sumLen w.data < 2147483648

instance (w : MemBufferWriter) : Decidable (writerWf w) := by
  unfold writerWf; infer_instance

/-- Well-formedness of a field value: scalar bit patterns fit their width,
slices hold genuine bytes/elements, and a nested writer is well-formed. -/
def FieldValue.wf : FieldValue → Prop
  | .str s => ∀ b ∈ s, b < 256
  | .int32 n => n < 4294967296
  | .uint64 n => n < 18446744073709551616
  | .vecU8 bs => ∀ b ∈ bs, b < 256
  | .vecU32 l => ∀ x ∈ l, x < 4294967296
  | .vecU64 l => ∀ x ∈ l, x < 18446744073709551616
  | .nested w => writerWf w

instance : DecidablePred FieldValue.wf := fun v => by
  cases v <;> (unfold FieldValue.wf; infer_instance)

/-- The i-th field of reader `r` decodes (via `load_entry::<T>` at the type
of `v`, or `load_recursive_reader` for a nested buffer) to exactly `v`. -/
def decodesTo (r : MemBufferReader) (i : Nat) : FieldValue → Prop
  | .str s => r.load_entry_str i = .ok s
  | .int32 n => r.load_entry_i32 i = .ok n
  | .uint64 n => r.load_entry_u64 i = .ok n
  | .vecU8 bs => r.load_entry_vecu8 i = .ok bs
  | .vecU32 l => r.load_entry_vecu32 i = .ok l
  | .vecU64 l => r.load_entry_vecu64 i = .ok l
  | .nested w => r.load_recursive_reader i = MemBufferReader.new w.finalize ∧
      ∃ r2, MemBufferReader.new w.finalize = Except.ok r2

theorem u32le_length (n : Nat) : (u32le n).length = 4 := rfl

theorem u64le_length (n : Nat) : (u64le n).length = 8 := rfl

theorem readU32_u32le_append (n : Nat) (r : List Nat) :
    readU32 (u32le n ++ r) = n % 4294967296 := by
  show n % 256 + 256 * (n / 256 % 256) + 65536 * (n / 65536 % 256) +
      16777216 * (n / 16777216 % 256) = n % 4294967296
  omega

theorem readU32_u32le (n : Nat) : readU32 (u32le n) = n % 4294967296 := by
  have h := readU32_u32le_append n []
  simpa using h

theorem readU64_u64le_append (n : Nat) (r : List Nat) :
    readU64 (u64le n ++ r) = n % 18446744073709551616 := by
  show n % 256 + 256 * (n / 256 % 256) + 65536 * (n / 65536 % 256) +
      16777216 * (n / 16777216 % 256) + 4294967296 * (n / 4294967296 % 256) +
      1099511627776 * (n / 1099511627776 % 256) +
      281474976710656 * (n / 281474976710656 % 256) +
      72057594037927936 * (n / 72057594037927936 % 256) =
      n % 18446744073709551616
  omega

theorem drop4_u32le_append (n : Nat) (r : List Nat) :
    (u32le n ++ r).drop 4 = r := rfl

theorem drop8_u64le_append (n : Nat) (r : List Nat) :
    (u64le n ++ r).drop 8 = r := rfl

theorem u32le_bytes_lt (n : Nat) : ∀ b ∈ u32le n, b < 256 := by
  intro b hb
  simp only [u32le, List.mem_cons, List.not_mem_nil, or_false] at hb
  rcases hb with h | h | h | h <;> omega

theorem u64le_bytes_lt (n : Nat) : ∀ b ∈ u64le n, b < 256 := by
  intro b hb
  simp only [u64le, List.mem_cons, List.not_mem_nil, or_false] at hb
  rcases hb with h | h | h | h | h | h | h | h <;> omega

theorem readU32_lt (bs : List Nat) (h : ∀ b ∈ bs, b < 256) :
    readU32 bs < 4294967296 := by
  match bs with
  | [] => simp [readU32]
  | [a] => simp [readU32]
  | [a, b] => simp [readU32]
  | [a, b, c] => simp [readU32]
  | b0 :: b1 :: b2 :: b3 :: rest =>
      have h0 := h b0 (by simp)
      have h1 := h b1 (by simp)
      have h2 := h b2 (by simp)
      have h3 := h b3 (by simp)
      show b0 + 256 * b1 + 65536 * b2 + 16777216 * b3 < 4294967296
      omega

/-- The checksum written by `finalize` is accepted by the check in
`MemBufferReader::new`: sign-extending `n - 0x7AFECAFE` (wrapping `i32`) and
adding back `0x7AFECAFE` in wrapping `usize` arithmetic recovers `n`. -/
theorem checksum_roundtrip (n : Nat) (hn : n < 2147483648) :
    (signExtend32 ((n % 4294967296 + 2231448834) % 4294967296) + 0x7AFECAFE) %
      18446744073709551616 = n := by
  unfold signExtend32
  split <;> omega

/-- A stored checksum belonging to count `n` never validates a different
count field `v`. -/
theorem checksum_mismatch (n v : Nat) (hn : n < 2147483648)
    (hv : v < 4294967296) (hne : v ≠ n) :
    (signExtend32 ((n % 4294967296 + 2231448834) % 4294967296) + 0x7AFECAFE) %
      18446744073709551616 ≠ signExtend32 v := by
  rw [checksum_roundtrip n hn]
  unfold signExtend32
  split <;> omega

theorem parseOffsets_length (n : Nat) (bs : List Nat) :
    (parseOffsets n bs).length = n := by
  induction n generalizing bs with
  | zero => rfl
  | succ k ih => simp [parseOffsets, ih]

/-- The parsed header entry list that `MemBufferReader::new` recovers from a
buffer written by `finalize`, expressed over the writer's state. -/
def buildOffsets : List Nat → List (List Nat) → Nat → List InternPosition
  | t :: ts, d :: ds, offset =>
      ⟨⟨offset % 4294967296,
        (d.length % 4294967296 + offset % 4294967296) % 4294967296⟩,
       t % 4294967296⟩ :: buildOffsets ts ds (offset + d.length)
  | _, _, _ => []

theorem finalizeEntries_length (ts : List Nat) (ds : List (List Nat))
    (off : Nat) (hl : ts.length = ds.length) :
    (finalizeEntries ts ds off).length = 12 * ts.length := by
  induction ts generalizing ds off with
  | nil => simp [finalizeEntries]
  | cons t ts ih =>
      match ds with
      | [] => simp at hl
      | d :: ds =>
          simp only [List.length_cons] at hl
          simp [finalizeEntries, List.length_append, u32le_length,
            ih ds (off + d.length) (by omega)]
          omega

theorem buildOffsets_length (ts : List Nat) (ds : List (List Nat))
    (off : Nat) (hl : ts.length = ds.length) :
    (buildOffsets ts ds off).length = ts.length := by
  induction ts generalizing ds off with
  | nil => simp [buildOffsets]
  | cons t ts ih =>
      match ds with
      | [] => simp at hl
      | d :: ds =>
          simp only [List.length_cons] at hl
          simp [buildOffsets, ih ds (off + d.length) (by omega)]

/-- Parsing the serialized header entries recovers `buildOffsets`, whatever
bytes follow the header. -/
theorem parseOffsets_finalizeEntries (ts : List Nat) (ds : List (List Nat))
    (off : Nat) (rest : List Nat) (hl : ts.length = ds.length) :
    parseOffsets ts.length (finalizeEntries ts ds off ++ rest) =
      buildOffsets ts ds off := by
  induction ts generalizing ds off rest with
  | nil => simp [parseOffsets, buildOffsets]
  | cons t ts ih =>
      match ds with
      | [] => simp at hl
      | d :: ds =>
          simp only [List.length_cons] at hl
          have hassoc : finalizeEntries (t :: ts) (d :: ds) off ++ rest =
              u32le (off % 4294967296) ++
              (u32le ((d.length % 4294967296 + off % 4294967296) % 4294967296) ++
              (u32le t ++ (finalizeEntries ts ds (off + d.length) ++ rest))) := by
            simp [finalizeEntries, List.append_assoc]
          rw [List.length_cons, hassoc]
          show (⟨⟨readU32 _, readU32 (List.drop 4 _)⟩, readU32 (List.drop 8 _)⟩ :
              InternPosition) :: parseOffsets ts.length (List.drop 12 _) =
            buildOffsets (t :: ts) (d :: ds) off
          rw [drop4_u32le_append]
          have hdrop8 : (u32le (off % 4294967296) ++
              (u32le ((d.length % 4294967296 + off % 4294967296) % 4294967296) ++
              (u32le t ++ (finalizeEntries ts ds (off + d.length) ++ rest)))).drop 8 =
              u32le t ++ (finalizeEntries ts ds (off + d.length) ++ rest) := rfl
          have hdrop12 : (u32le (off % 4294967296) ++
              (u32le ((d.length % 4294967296 + off % 4294967296) % 4294967296) ++
              (u32le t ++ (finalizeEntries ts ds (off + d.length) ++ rest)))).drop 12 =
              finalizeEntries ts ds (off + d.length) ++ rest := rfl
          rw [hdrop8, hdrop12, readU32_u32le_append, readU32_u32le_append,
            readU32_u32le_append, ih ds (off + d.length) rest (by omega)]
          simp [buildOffsets, Nat.mod_mod_of_dvd]

theorem sumLen_nil : sumLen [] = 0 := rfl

theorem sumLen_cons (d : List Nat) (ds : List (List Nat)) :
    sumLen (d :: ds) = d.length + sumLen ds := by
  simp [sumLen]

theorem sumLen_append (ds es : List (List Nat)) :
    sumLen (ds ++ es) = sumLen ds + sumLen es := by
  simp [sumLen]

theorem sumLen_take_succ (ds : List (List Nat)) (i : Nat) (h : i < ds.length) :
    sumLen (ds.take (i + 1)) = sumLen (ds.take i) + (ds.getD i []).length := by
  induction ds generalizing i with
  | nil => simp at h
  | cons d ds ih =>
      match i with
      | 0 => simp [sumLen_cons]; omega
      | i + 1 =>
          simp only [List.length_cons] at h
          simp only [List.take_succ_cons, sumLen_cons, List.getD_cons_succ]
          rw [ih i (by omega)]
          omega

theorem sumLen_take_le (ds : List (List Nat)) (i : Nat) :
    sumLen (ds.take i) ≤ sumLen ds := by
  conv_rhs => rw [← List.take_append_drop i ds]
  rw [sumLen_append]
  omega

theorem length_flatten_eq_sumLen (ds : List (List Nat)) :
    ds.flatten.length = sumLen ds := by
  simp [sumLen]

/-- Entry `i` of the parsed header of a finalized buffer: its start is the
running payload offset, its end adds the i-th payload's length, its type is
the i-th stored tag (all as `i32` bit patterns). -/
theorem buildOffsets_getD (ts : List Nat) (ds : List (List Nat)) (off i : Nat)
    (hl : ts.length = ds.length) (hi : i < ts.length) :
    (buildOffsets ts ds off).getD i ⟨⟨0, 0⟩, 0⟩ =
      ⟨⟨(off + sumLen (ds.take i)) % 4294967296,
        ((ds.getD i []).length % 4294967296 +
          (off + sumLen (ds.take i)) % 4294967296) % 4294967296⟩,
       ts.getD i 0 % 4294967296⟩ := by
  induction ts generalizing ds off i with
  | nil => simp at hi
  | cons t ts ih =>
      match ds with
      | [] => simp at hl
      | d :: ds =>
          simp only [List.length_cons] at hl hi
          match i with
          | 0 => simp [buildOffsets, sumLen_nil]
          | i + 1 =>
              simp only [buildOffsets, List.getD_cons_succ, List.take_succ_cons,
                sumLen_cons]
              rw [ih ds (off + d.length) i (by omega) (by omega)]
              congr 2
              all_goals omega

/-- Extracting the i-th payload from the concatenated payload region. -/
theorem flatten_extract (ds : List (List Nat)) (i : Nat) (h : i < ds.length) :
    (ds.flatten.drop (sumLen (ds.take i))).take (ds.getD i []).length =
      ds.getD i [] := by
  induction ds generalizing i with
  | nil => simp at h
  | cons d ds ih =>
      match i with
      | 0 =>
          simp only [List.take_zero, sumLen_nil, List.drop_zero,
            List.getD_cons_zero, List.flatten_cons]
          exact List.take_left d ds.flatten
      | i + 1 =>
          simp only [List.length_cons] at h
          simp only [List.flatten_cons, List.take_succ_cons, sumLen_cons,
            List.getD_cons_succ]
          rw [List.drop_append_eq_append_drop]
          have hdrop : d.drop (d.length + sumLen (ds.take i)) = [] :=
            List.drop_eq_nil_of_le (by omega)
          rw [hdrop, List.nil_append]
          have harith : d.length + sumLen (ds.take i) - d.length =
              sumLen (ds.take i) := by omega
          rw [harith]
          exact ih i (by omega)

theorem finalize_eq (w : MemBufferWriter) :
    w.finalize = u32le (w.types.length % 4294967296) ++
      (u32le ((w.types.length % 4294967296 + 2231448834) % 4294967296) ++
      (finalizeEntries w.types w.data 0 ++ w.data.flatten)) := by
  simp [MemBufferWriter.finalize, List.append_assoc]

theorem finalize_length (w : MemBufferWriter)
    (hl : w.types.length = w.data.length) :
    w.finalize.length = 8 + 12 * w.types.length + sumLen w.data := by
  rw [finalize_eq]
  simp [List.length_append, u32le_length, finalizeEntries_length _ _ _ hl,
    sumLen]
  omega

theorem finalizeEntries_bytes_lt (ts : List Nat) (ds : List (List Nat))
    (off : Nat) : ∀ b ∈ finalizeEntries ts ds off, b < 256 := by
  induction ts generalizing ds off with
  | nil => intro b hb; simp [finalizeEntries] at hb
  | cons t ts ih =>
      match ds with
      | [] => intro b hb; simp [finalizeEntries] at hb
      | d :: ds =>
          intro b hb
          simp only [finalizeEntries, List.mem_append] at hb
          rcases hb with ((h | h) | h) | h
          · exact u32le_bytes_lt _ b h
          · exact u32le_bytes_lt _ b h
          · exact u32le_bytes_lt _ b h
          · exact ih ds (off + d.length) b h

/-- Every byte of a finalized buffer is a genuine byte (needed when one
finalized buffer becomes the payload of a nested entry). -/
theorem finalize_bytes_lt (w : MemBufferWriter)
    (hbytes : ∀ d ∈ w.data, ∀ b ∈ d, b < 256) :
    ∀ b ∈ w.finalize, b < 256 := by
  intro b hb
  rw [finalize_eq] at hb
  simp only [List.mem_append] at hb
  rcases hb with h | h | h | h
  · exact u32le_bytes_lt _ b h
  · exact u32le_bytes_lt _ b h
  · exact finalizeEntries_bytes_lt _ _ _ b h
  · obtain ⟨d, hd, hbd⟩ := List.mem_flatten.mp h
    exact hbytes d hd b hbd

/-- `MemBufferReader::new` on a finalized buffer of a well-formed writer
succeeds: the parsed header entries are `buildOffsets` over the writer's
state and the payload view is the concatenation of the writer's buffers. -/
theorem new_finalize (w : MemBufferWriter) (hwf : writerWf w) :
    MemBufferReader.new w.finalize =
      .ok ⟨buildOffsets w.types w.data 0, w.data.flatten⟩ := by
  obtain ⟨hl, hn, _htypes, _hbytes, hpay⟩ := hwf
  have hflen := finalize_length w hl
  have hread0 : readU32 w.finalize = w.types.length := by
    rw [finalize_eq, readU32_u32le_append]; omega
  have hread4 : readU32 (w.finalize.drop 4) =
      (w.types.length % 4294967296 + 2231448834) % 4294967296 := by
    rw [finalize_eq, drop4_u32le_append, readU32_u32le_append]; omega
  have hsign : signExtend32 w.types.length = w.types.length := by
    unfold signExtend32; split <;> omega
  have hdrop8 : w.finalize.drop 8 =
      finalizeEntries w.types w.data 0 ++ w.data.flatten := by
    rw [finalize_eq]; rfl
  have hdropstart : w.finalize.drop (12 * w.types.length + 8) =
      w.data.flatten := by
    rw [finalize_eq]
    have hre : u32le (w.types.length % 4294967296) ++
        (u32le ((w.types.length % 4294967296 + 2231448834) % 4294967296) ++
        (finalizeEntries w.types w.data 0 ++ w.data.flatten)) =
        ((u32le (w.types.length % 4294967296) ++
          u32le ((w.types.length % 4294967296 + 2231448834) % 4294967296)) ++
          finalizeEntries w.types w.data 0) ++ w.data.flatten := by
      simp [List.append_assoc]
    rw [hre]
    have hplen : ((u32le (w.types.length % 4294967296) ++
        u32le ((w.types.length % 4294967296 + 2231448834) % 4294967296)) ++
        finalizeEntries w.types w.data 0).length =
        12 * w.types.length + 8 := by
      simp [List.length_append, u32le_length, finalizeEntries_length _ _ _ hl]
      omega
    rw [← hplen, List.drop_left]
  simp only [MemBufferReader.new, MemBufferReader.deserialize_i32_from]
  rw [hread0, hread4, hsign]
  have hstart : (w.types.length * 12 + 8) % 18446744073709551616 =
      12 * w.types.length + 8 := by omega
  rw [hstart]
  rw [if_neg (by omega : ¬ w.finalize.length < 8)]
  rw [if_neg ?hcond]
  case hcond =>
    push_neg
    exact ⟨by omega, checksum_roundtrip _ hn⟩
  rw [hdrop8, parseOffsets_finalizeEntries _ _ _ _ hl, hdropstart]

/-- Header entry `i` of the reader over a well-formed writer's finalized
buffer: offsets are the exact running payload sums (no wrap-around), the
type is the stored tag, and `intern_load_entry` with that tag returns
exactly the i-th payload. -/
theorem reader_entry_facts (w : MemBufferWriter) (hwf : writerWf w) (i : Nat)
    (hi : i < w.types.length) :
    (buildOffsets w.types w.data 0).getD i ⟨⟨0, 0⟩, 0⟩ =
      ⟨⟨sumLen (w.data.take i),
        sumLen (w.data.take i) + (w.data.getD i []).length⟩,
       w.types.getD i 0⟩ ∧
    MemBufferReader.intern_load_entry
      ⟨buildOffsets w.types w.data 0, w.data.flatten⟩ i (w.types.getD i 0) =
      .ok (w.data.getD i []) := by
  obtain ⟨hl, hn, htypes, hbytes, hpay⟩ := hwf
  have hid : i < w.data.length := by omega
  have hPle : sumLen (w.data.take (i + 1)) ≤ sumLen w.data :=
    sumLen_take_le w.data (i + 1)
  have hPsucc := sumLen_take_succ w.data i hid
  have hP : sumLen (w.data.take i) < 2147483648 := by
    have := sumLen_take_le w.data i; omega
  have hPL : sumLen (w.data.take i) + (w.data.getD i []).length <
      2147483648 := by omega
  have htlt : w.types.getD i 0 < 4294967296 := by
    have hmem : w.types.getD i 0 ∈ w.types := by
      rw [List.getD_eq_getElem _ _ hi]
      exact List.getElem_mem hi
    exact htypes _ hmem
  have hentry := buildOffsets_getD w.types w.data 0 i hl hi
  have hentry2 : (buildOffsets w.types w.data 0).getD i ⟨⟨0, 0⟩, 0⟩ =
      ⟨⟨sumLen (w.data.take i),
        sumLen (w.data.take i) + (w.data.getD i []).length⟩,
       w.types.getD i 0⟩ := by
    rw [hentry]
    congr 2
    · omega
    · omega
    · omega
  refine ⟨hentry2, ?_⟩
  unfold MemBufferReader.intern_load_entry
  simp only [hentry2]
  rw [if_neg (by simp)]
  have hs1 : signExtend32 (sumLen (w.data.take i)) = sumLen (w.data.take i) := by
    unfold signExtend32; split <;> omega
  have hs2 : signExtend32 (sumLen (w.data.take i) + (w.data.getD i []).length) =
      sumLen (w.data.take i) + (w.data.getD i []).length := by
    unfold signExtend32; split <;> omega
  simp only [hs1, hs2]
  have harith : sumLen (w.data.take i) + (w.data.getD i []).length -
      sumLen (w.data.take i) = (w.data.getD i []).length := by omega
  rw [harith, flatten_extract w.data i hid]

theorem to_mem_buffer_vecu64_length (l : List Nat) :
    (to_mem_buffer_vecu64 l).length = 8 * l.length := by
  induction l with
  | nil => rfl
  | cons x xs ih =>
      simp only [to_mem_buffer_vecu64, List.map_cons, List.flatten_cons,
        List.length_append, u64le_length, List.length_cons] at ih ⊢
      omega

theorem to_mem_buffer_vecu32_length (l : List Nat) :
    (to_mem_buffer_vecu32 l).length = 4 * l.length := by
  induction l with
  | nil => rfl
  | cons x xs ih =>
      simp only [to_mem_buffer_vecu32, List.map_cons, List.flatten_cons,
        List.length_append, u32le_length, List.length_cons] at ih ⊢
      omega

theorem readU64s_flatten (l : List Nat) (hl : ∀ x ∈ l, x < 18446744073709551616) :
    readU64s l.length (l.map u64le).flatten = l := by
  induction l with
  | nil => rfl
  | cons x xs ih =>
      simp only [List.map_cons, List.flatten_cons, List.length_cons]
      show readU64 (u64le x ++ (xs.map u64le).flatten) ::
        readU64s xs.length ((u64le x ++ (xs.map u64le).flatten).drop 8) = x :: xs
      rw [readU64_u64le_append, drop8_u64le_append,
        ih (fun y hy => hl y (List.mem_cons_of_mem x hy)),
        Nat.mod_eq_of_lt (hl x (List.mem_cons_self x xs))]

theorem readU32s_flatten (l : List Nat) (hl : ∀ x ∈ l, x < 4294967296) :
    readU32s l.length (l.map u32le).flatten = l := by
  induction l with
  | nil => rfl
  | cons x xs ih =>
      simp only [List.map_cons, List.flatten_cons, List.length_cons]
      show readU32 (u32le x ++ (xs.map u32le).flatten) ::
        readU32s xs.length ((u32le x ++ (xs.map u32le).flatten).drop 4) = x :: xs
      rw [readU32_u32le_append, drop4_u32le_append,
        ih (fun y hy => hl y (List.mem_cons_of_mem x hy)),
        Nat.mod_eq_of_lt (hl x (List.mem_cons_self x xs))]

/-- Decoding is a left inverse of encoding: if the typed load reaches
`X::from_mem_buffer` with exactly the bytes produced by `to_mem_buffer`,
the original value comes back (for a nested writer: the recursive reader is
the reader over the nested finalized bytes, and it parses successfully). -/
theorem decodesTo_of_intern (r : MemBufferReader) (i : Nat) (v : FieldValue)
    (hv : v.wf) (h : r.intern_load_entry i v.tag = .ok v.encode) :
    decodesTo r i v := by
  cases v with
  | str s =>
      show r.load_entry_str i = .ok s
      unfold MemBufferReader.load_entry_str
      simp only [FieldValue.tag, FieldValue.encode] at h
      rw [h]
      rfl
  | int32 n =>
      show r.load_entry_i32 i = .ok n
      unfold MemBufferReader.load_entry_i32
      simp only [FieldValue.tag, FieldValue.encode] at h
      rw [h]
      show from_mem_buffer_i32 (to_mem_buffer_i32 n) = .ok n
      unfold from_mem_buffer_i32 to_mem_buffer_i32
      rw [readU32_u32le]
      exact congrArg Except.ok (Nat.mod_eq_of_lt hv)
  | uint64 n =>
      show r.load_entry_u64 i = .ok n
      unfold MemBufferReader.load_entry_u64
      simp only [FieldValue.tag, FieldValue.encode] at h
      rw [h]
      show from_mem_buffer_u64 (to_mem_buffer_u64 n) = .ok n
      unfold from_mem_buffer_u64 to_mem_buffer_u64
      have : readU64 (u64le n) = n % 18446744073709551616 := by
        have := readU64_u64le_append n []
        simpa using this
      rw [this]
      exact congrArg Except.ok (Nat.mod_eq_of_lt hv)
  | vecU8 bs =>
      show r.load_entry_vecu8 i = .ok bs
      unfold MemBufferReader.load_entry_vecu8
      simp only [FieldValue.tag, FieldValue.encode] at h
      rw [h]
      rfl
  | vecU32 l =>
      show r.load_entry_vecu32 i = .ok l
      unfold MemBufferReader.load_entry_vecu32
      simp only [FieldValue.tag, FieldValue.encode] at h
      rw [h]
      show from_mem_buffer_vecu32 (to_mem_buffer_vecu32 l) = .ok l
      unfold from_mem_buffer_vecu32
      have hlen : (to_mem_buffer_vecu32 l).length >>> 2 = l.length := by
        rw [Nat.shiftRight_eq_div_pow, to_mem_buffer_vecu32_length]
        omega
      rw [hlen]
      exact congrArg Except.ok (readU32s_flatten l hv)
  | vecU64 l =>
      show r.load_entry_vecu64 i = .ok l
      unfold MemBufferReader.load_entry_vecu64
      simp only [FieldValue.tag, FieldValue.encode] at h
      rw [h]
      show from_mem_buffer_vecu64 (to_mem_buffer_vecu64 l) = .ok l
      unfold from_mem_buffer_vecu64
      have hlen : (to_mem_buffer_vecu64 l).length >>> 3 = l.length := by
        rw [Nat.shiftRight_eq_div_pow, to_mem_buffer_vecu64_length]
        omega
      rw [hlen]
      exact congrArg Except.ok (readU64s_flatten l hv)
  | nested wn =>
      refine ⟨?_, ?_⟩
      · show r.load_recursive_reader i = MemBufferReader.new wn.finalize
        unfold MemBufferReader.load_recursive_reader
        simp only [FieldValue.tag, FieldValue.encode] at h
        rw [h]
        rfl
      · exact ⟨_, new_finalize wn hv⟩

theorem tag_lt (v : FieldValue) : v.tag < 4294967296 := by
  cases v <;> simp only [FieldValue.tag] <;> decide

theorem encode_bytes_lt (v : FieldValue) (hv : v.wf) :
    ∀ b ∈ v.encode, b < 256 := by
  cases v with
  | str s => exact hv
  | int32 n => exact u32le_bytes_lt n
  | uint64 n => exact u64le_bytes_lt n
  | vecU8 bs => exact hv
  | vecU32 l =>
      intro b hb
      obtain ⟨chunk, hc, hbc⟩ := List.mem_flatten.mp hb
      obtain ⟨x, _, hx⟩ := List.mem_map.mp hc
      exact u32le_bytes_lt x b (hx ▸ hbc)
  | vecU64 l =>
      intro b hb
      obtain ⟨chunk, hc, hbc⟩ := List.mem_flatten.mp hb
      obtain ⟨x, _, hx⟩ := List.mem_map.mp hc
      exact u64le_bytes_lt x b (hx ▸ hbc)
  | nested wn => exact finalize_bytes_lt wn hv.2.2.2.1

/-- The writer obtained by `add_entry`-ing a sequence of values into an
empty writer. -/
def writerOf (vs : List FieldValue) : MemBufferWriter :=
  vs.foldl MemBufferWriter.add_value MemBufferWriter.new

theorem foldl_add_value_types (vs : List FieldValue) (w : MemBufferWriter) :
    (vs.foldl MemBufferWriter.add_value w).types =
      w.types ++ vs.map FieldValue.tag := by
  induction vs generalizing w with
  | nil => simp
  | cons v vs ih =>
      simp only [List.foldl_cons, List.map_cons]
      rw [ih]
      simp [MemBufferWriter.add_value, MemBufferWriter.add_entry]

theorem foldl_add_value_data (vs : List FieldValue) (w : MemBufferWriter) :
    (vs.foldl MemBufferWriter.add_value w).data =
      w.data ++ vs.map FieldValue.encode := by
  induction vs generalizing w with
  | nil => simp
  | cons v vs ih =>
      simp only [List.foldl_cons, List.map_cons]
      rw [ih]
      simp [MemBufferWriter.add_value, MemBufferWriter.add_entry]

theorem writerOf_types (vs : List FieldValue) :
    (writerOf vs).types = vs.map FieldValue.tag := by
  rw [writerOf, foldl_add_value_types]
  rfl

theorem writerOf_data (vs : List FieldValue) :
    (writerOf vs).data = vs.map FieldValue.encode := by
  rw [writerOf, foldl_add_value_data]
  rfl

theorem writerWf_writerOf (vs : List FieldValue) (hwf : ∀ v ∈ vs, v.wf)
    (hn : vs.length < 2147483648)
    (hpay : sumLen (vs.map FieldValue.encode) < 2147483648) :
    writerWf (writerOf vs) := by
  refine ⟨?_, ?_, ?_, ?_, ?_⟩
  · rw [writerOf_types, writerOf_data]; simp
  · rw [writerOf_types]; simpa using hn
  · rw [writerOf_types]
    intro t ht
    obtain ⟨v, _, hv⟩ := List.mem_map.mp ht
    exact hv ▸ tag_lt v
  · rw [writerOf_data]
    intro d hd
    obtain ⟨v, hvmem, hv⟩ := List.mem_map.mp hd
    exact hv ▸ encode_bytes_lt v (hwf v hvmem)
  · rw [writerOf_data]; exact hpay

theorem getD_map_tag (vs : List FieldValue) (i : Nat) (h : i < vs.length) :
    (vs.map FieldValue.tag).getD i 0 = (vs.getD i (.str [])).tag := by
  rw [List.getD_eq_getElem _ _ (by simpa using h),
    List.getD_eq_getElem _ _ h, List.getElem_map]

theorem getD_map_encode (vs : List FieldValue) (i : Nat) (h : i < vs.length) :
    (vs.map FieldValue.encode).getD i [] = (vs.getD i (.str [])).encode := by
  rw [List.getD_eq_getElem _ _ (by simpa using h),
    List.getD_eq_getElem _ _ h, List.getElem_map]

theorem getD_concat_length {α : Type} (l : List α) (a d : α) :
    (l ++ [a]).getD l.length d = a := by
  induction l with
  | nil => rfl
  | cons x xs ih => simp

theorem getD_append_left {α : Type} (l l2 : List α) (i : Nat) (d : α)
    (h : i < l.length) : (l ++ l2).getD i d = l.getD i d := by
  rw [List.getD_eq_getElem _ _ (by simp; omega),
    List.getD_eq_getElem _ _ h, List.getElem_append_left h]

/-- C2: Order preservation — for every sequence of values added through
`add_entry`, after `finalize()` and `MemBufferReader::new` the reader's
`len()` equals the number of `add_entry` calls, `load_entry(i)` returns the
value passed to the i-th call, and the i-th header entry's start offset is
the sum of the encoded lengths of entries `0..i` while its end offset is
that start plus the i-th entry's encoded length. -/
theorem order_preservation (vs : List FieldValue)
    (hwf : ∀ v ∈ vs, v.wf) (hn : vs.length < 2147483648)
    (hpay : sumLen (vs.map FieldValue.encode) < 2147483648) :
    ∃ r, MemBufferReader.new (writerOf vs).finalize = .ok r ∧
      r.len = vs.length ∧
      ∀ i, i < vs.length →
        decodesTo r i (vs.getD i (.str [])) ∧
        (r.offsets.getD i ⟨⟨0, 0⟩, 0⟩).pos.start =
          sumLen ((vs.map FieldValue.encode).take i) ∧
        (r.offsets.getD i ⟨⟨0, 0⟩, 0⟩).pos.endp =
          sumLen ((vs.map FieldValue.encode).take i) +
            (vs.getD i (.str [])).encode.length := by
  have hW : writerWf (writerOf vs) := writerWf_writerOf vs hwf hn hpay
  have htl : (writerOf vs).types.length = vs.length := by
    rw [writerOf_types]; simp
  refine ⟨_, new_finalize _ hW, ?_, ?_⟩
  · show (buildOffsets (writerOf vs).types (writerOf vs).data 0).length = vs.length
    rw [buildOffsets_length _ _ _ hW.1, htl]
  · intro i hi
    have hi' : i < (writerOf vs).types.length := by omega
    have hmem : vs.getD i (.str []) ∈ vs := by
      rw [List.getD_eq_getElem _ _ hi]
      exact List.getElem_mem hi
    have hfacts := reader_entry_facts (writerOf vs) hW i hi'
    have htag : (writerOf vs).types.getD i 0 = (vs.getD i (.str [])).tag := by
      rw [writerOf_types, getD_map_tag vs i hi]
    have hencD : (writerOf vs).data.getD i [] = (vs.getD i (.str [])).encode := by
      rw [writerOf_data, getD_map_encode vs i hi]
    refine ⟨?_, ?_, ?_⟩
    · apply decodesTo_of_intern _ _ _ (hwf _ hmem)
      have h2 := hfacts.2
      rw [htag, hencD] at h2
      exact h2
    · show ((buildOffsets (writerOf vs).types (writerOf vs).data 0).getD i
        ⟨⟨0, 0⟩, 0⟩).pos.start = _
      rw [hfacts.1, writerOf_data]
    · show ((buildOffsets (writerOf vs).types (writerOf vs).data 0).getD i
        ⟨⟨0, 0⟩, 0⟩).pos.endp = _
      rw [hfacts.1]
      show sumLen ((writerOf vs).data.take i) +
          ((writerOf vs).data.getD i []).length = _
      rw [hencD, writerOf_data]

/-- C1: Round-trip — for every supported field value, adding it to an empty
writer, finalizing, and constructing a reader on the resulting bytes
succeeds, and loading entry 0 at the value's type returns the value. -/
theorem roundtrip_single_entry (v : FieldValue) (hv : v.wf)
    (henc : v.encode.length < 2147483648) :
    ∃ r, MemBufferReader.new ((MemBufferWriter.new.add_value v).finalize) =
        .ok r ∧ r.len = 1 ∧ decodesTo r 0 v := by
  have hpay : sumLen ([v].map FieldValue.encode) < 2147483648 := by
    simp only [List.map_cons, List.map_nil, sumLen_cons, sumLen_nil]
    omega
  obtain ⟨r, hnew, hlen, hfields⟩ :=
    order_preservation [v] (by simpa using hv) (by norm_num) hpay
  exact ⟨r, hnew, hlen, by simpa using (hfields 0 (by norm_num)).1⟩

/-- C3: Type-mismatch detection — for an in-range index whose stored tag is
`A`, requesting the entry at a type whose tag is `B ≠ A` yields
`FieldTypeError(A, B)` (actual first, expected second), never a value; in
particular `load_recursive_reader` on a field that is not a nested buffer
fails with `FieldTypeError(A, MemBuffer)`. -/
theorem type_mismatch_detection (r : MemBufferReader) (i A B : Nat)
    (_hi : i < r.offsets.length)
    (hA : (r.offsets.getD i ⟨⟨0, 0⟩, 0⟩).variable_type = A)
    (hAB : A ≠ B) :
    r.intern_load_entry i B = .error (.FieldTypeError A B) ∧
    (A ≠ get_mem_buffer_type_writer →
      r.load_recursive_reader i =
        .error (.FieldTypeError A get_mem_buffer_type_writer)) := by
  have hmain : ∀ C, A ≠ C →
      r.intern_load_entry i C = .error (.FieldTypeError A C) := by
    intro C hC
    simp only [MemBufferReader.intern_load_entry, hA]
    rw [if_pos hC]
  refine ⟨hmain B hAB, fun h5 => ?_⟩
  unfold MemBufferReader.load_recursive_reader
  rw [hmain _ h5]
  rfl

/-- C6: Deterministic finalize — `finalize` depends only on the writer's
`types` and `data` sequences, so two writers in the same state (in
particular, one writer finalized twice without mutation) produce
byte-identical buffers. -/
theorem finalize_deterministic (w1 w2 : MemBufferWriter)
    (ht : w1.types = w2.types) (hd : w1.data = w2.data) :
    w1.finalize = w2.finalize := by
  simp only [MemBufferWriter.finalize, ht, hd]

theorem readU64s_length (n : Nat) (bs : List Nat) :
    (readU64s n bs).length = n := by
  induction n generalizing bs with
  | zero => rfl
  | succ k ih => simp [readU64s, ih]

theorem readU32s_length (n : Nat) (bs : List Nat) :
    (readU32s n bs).length = n := by
  induction n generalizing bs with
  | zero => rfl
  | succ k ih => simp [readU32s, ih]

theorem readU64_take (bs : List Nat) (m : Nat) (hm : 8 ≤ m) :
    readU64 (bs.take m) = readU64 bs := by
  match bs with
  | [] => simp
  | [b0] => rw [List.take_of_length_le (by simp; omega)]
  | [b0, b1] => rw [List.take_of_length_le (by simp; omega)]
  | [b0, b1, b2] => rw [List.take_of_length_le (by simp; omega)]
  | [b0, b1, b2, b3] => rw [List.take_of_length_le (by simp; omega)]
  | [b0, b1, b2, b3, b4] => rw [List.take_of_length_le (by simp; omega)]
  | [b0, b1, b2, b3, b4, b5] => rw [List.take_of_length_le (by simp; omega)]
  | [b0, b1, b2, b3, b4, b5, b6] => rw [List.take_of_length_le (by simp; omega)]
  | b0 :: b1 :: b2 :: b3 :: b4 :: b5 :: b6 :: b7 :: rest =>
      obtain ⟨k, rfl⟩ : ∃ k, m = k + 8 := ⟨m - 8, by omega⟩
      rfl

theorem readU32_take (bs : List Nat) (m : Nat) (hm : 4 ≤ m) :
    readU32 (bs.take m) = readU32 bs := by
  match bs with
  | [] => simp
  | [b0] => rw [List.take_of_length_le (by simp; omega)]
  | [b0, b1] => rw [List.take_of_length_le (by simp; omega)]
  | [b0, b1, b2] => rw [List.take_of_length_le (by simp; omega)]
  | b0 :: b1 :: b2 :: b3 :: rest =>
      obtain ⟨k, rfl⟩ : ∃ k, m = k + 4 := ⟨m - 4, by omega⟩
      rfl

theorem readU64s_take (k : Nat) (bs : List Nat) :
    readU64s k (bs.take (8 * k)) = readU64s k bs := by
  induction k generalizing bs with
  | zero => rfl
  | succ n ih =>
      show readU64 (bs.take (8 * (n + 1))) ::
          readU64s n ((bs.take (8 * (n + 1))).drop 8) =
        readU64 bs :: readU64s n (bs.drop 8)
      rw [readU64_take bs _ (by omega)]
      congr 1
      have h8 : 8 * (n + 1) - 8 = 8 * n := by omega
      have hdt : (bs.take (8 * (n + 1))).drop 8 = (bs.drop 8).take (8 * n) := by
        rw [List.drop_take, h8]
      rw [hdt, ih]

theorem readU32s_take (k : Nat) (bs : List Nat) :
    readU32s k (bs.take (4 * k)) = readU32s k bs := by
  induction k generalizing bs with
  | zero => rfl
  | succ n ih =>
      show readU32 (bs.take (4 * (n + 1))) ::
          readU32s n ((bs.take (4 * (n + 1))).drop 4) =
        readU32 bs :: readU32s n (bs.drop 4)
      rw [readU32_take bs _ (by omega)]
      congr 1
      have h4 : 4 * (n + 1) - 4 = 4 * n := by omega
      have hdt : (bs.take (4 * (n + 1))).drop 4 = (bs.drop 4).take (4 * n) := by
        rw [List.drop_take, h4]
      rw [hdt, ih]

/-- C10: Vector decoding truncates to whole elements — `from_mem_buffer` for
`&[u64]` always succeeds with exactly `⌊len/8⌋` elements and for `&[u32]`
with exactly `⌊len/4⌋` elements, and the result only depends on the leading
whole elements: trailing remainder bytes are silently ignored. -/
theorem vector_decode_truncates (m : List Nat) :
    (∃ l64, from_mem_buffer_vecu64 m = .ok l64 ∧ l64.length = m.length / 8) ∧
    (∃ l32, from_mem_buffer_vecu32 m = .ok l32 ∧ l32.length = m.length / 4) ∧
    from_mem_buffer_vecu64 m =
      from_mem_buffer_vecu64 (m.take (8 * (m.length / 8))) ∧
    from_mem_buffer_vecu32 m =
      from_mem_buffer_vecu32 (m.take (4 * (m.length / 4))) := by
  have hs3 : m.length >>> 3 = m.length / 8 := by
    rw [Nat.shiftRight_eq_div_pow]
  have hs2 : m.length >>> 2 = m.length / 4 := by
    rw [Nat.shiftRight_eq_div_pow]
  have htl64 : (m.take (8 * (m.length / 8))).length = 8 * (m.length / 8) := by
    rw [List.length_take]
    omega
  have htl32 : (m.take (4 * (m.length / 4))).length = 4 * (m.length / 4) := by
    rw [List.length_take]
    omega
  refine ⟨⟨_, rfl, ?_⟩, ⟨_, rfl, ?_⟩, ?_, ?_⟩
  · rw [readU64s_length, hs3]
  · rw [readU32s_length, hs2]
  · unfold from_mem_buffer_vecu64
    rw [htl64, hs3]
    have : (8 * (m.length / 8)) >>> 3 = m.length / 8 := by
      rw [Nat.shiftRight_eq_div_pow]
      omega
    rw [this, readU64s_take]
  · unfold from_mem_buffer_vecu32
    rw [htl32, hs2]
    have : (4 * (m.length / 4)) >>> 2 = m.length / 4 := by
      rw [Nat.shiftRight_eq_div_pow]
      omega
    rw [this, readU32s_take]

/-- `MemBufferReader::new` as a single conditional: it fails exactly when
the slice is shorter than the 8 leading bytes, shorter than the declared
header size, or the checksum comparison fails. -/
theorem new_eq_ite (val : List Nat) :
    MemBufferReader.new val =
      if val.length < 8 ∨
          val.length < (signExtend32 (readU32 val) * 12 + 8) %
            18446744073709551616 ∨
          (signExtend32 (readU32 (val.drop 4)) + 0x7AFECAFE) %
            18446744073709551616 ≠ signExtend32 (readU32 val) then
        .error .WrongFormat
      else
        .ok ⟨parseOffsets (signExtend32 (readU32 val)) (val.drop 8),
          val.drop ((signExtend32 (readU32 val) * 12 + 8) %
            18446744073709551616)⟩ := by
  simp only [MemBufferReader.new, MemBufferReader.deserialize_i32_from]
  by_cases h1 : val.length < 8
  · rw [if_pos h1, if_pos (Or.inl h1)]
  · rw [if_neg h1]
    by_cases h2 : val.length < (signExtend32 (readU32 val) * 12 + 8) %
        18446744073709551616 ∨
        (signExtend32 (readU32 (val.drop 4)) + 0x7AFECAFE) %
          18446744073709551616 ≠ signExtend32 (readU32 val)
    · rw [if_pos h2, if_pos (Or.inr h2)]
    · rw [if_neg h2, if_neg (fun h => h.elim h1 h2)]

/-- C4: Header validation at construction — (under the physical limits of a
64-bit machine: slice length below `2^63`, elements genuine bytes)
`MemBufferReader::new` returns `WrongFormat` exactly when the input is
shorter than the 8-byte leading header, or shorter than
`8 + entry_count * 12` for the declared (sign-extended) entry count, or the
stored checksum does not match the recomputed one; otherwise it succeeds,
the entry count is the non-negative `i32` read from the first 4 bytes, and
the payload region is exactly the bytes after the header.  Moreover
`intern_load_entry` can never produce `WrongFormat`: that error arises only
in the constructor. -/
theorem new_header_validation (val : List Nat)
    (hlen : val.length < 9223372036854775808)
    (hbytes : ∀ b ∈ val, b < 256) :
    (MemBufferReader.new val = .error .WrongFormat ↔
      (val.length < 8 ∨
       val.length < signExtend32 (readU32 val) * 12 + 8 ∨
       (signExtend32 (readU32 (val.drop 4)) + 0x7AFECAFE) %
         18446744073709551616 ≠ signExtend32 (readU32 val))) ∧
    (∀ r, MemBufferReader.new val = .ok r →
      readU32 val < 2147483648 ∧
      r.offsets.length = readU32 val ∧
      r.data = val.drop (8 + 12 * readU32 val)) ∧
    (∀ (r : MemBufferReader) (i t : Nat),
      r.intern_load_entry i t ≠ .error .WrongFormat) := by
  have hV : readU32 val < 4294967296 := readU32_lt val hbytes
  have hmod : (signExtend32 (readU32 val) * 12 + 8) % 18446744073709551616 >
      val.length ∨ (signExtend32 (readU32 val) * 12 + 8) %
        18446744073709551616 = signExtend32 (readU32 val) * 12 + 8 := by
    by_cases hsmall : readU32 val < 2147483648
    · right
      unfold signExtend32
      rw [if_pos hsmall]
      omega
    · left
      unfold signExtend32
      rw [if_neg hsmall]
      have hstep : ((readU32 val + 18446744069414584320) * 12 + 8) %
          18446744073709551616 = 12 * readU32 val + 18446744022169944072 := by
        omega
      omega
  refine ⟨?_, ?_, ?_⟩
  · rw [new_eq_ite]
    split_ifs with hc
    · simp only [true_iff]
      rcases hc with h | h | h
      · exact Or.inl h
      · refine Or.inr (Or.inl ?_)
        rcases hmod with hm | hm <;> omega
      · exact Or.inr (Or.inr h)
    · simp only [false_iff]
      push_neg at hc ⊢
      refine ⟨hc.1, ?_, hc.2.2⟩
      rcases hmod with hm | hm <;> omega
  · intro r hr
    rw [new_eq_ite] at hr
    split_ifs at hr with hc
    push_neg at hc
    obtain ⟨h8, hstart, hchk⟩ := hc
    have hVsmall : readU32 val < 2147483648 := by
      by_contra hbig
      have : signExtend32 (readU32 val) = readU32 val + 18446744069414584320 := by
        unfold signExtend32
        rw [if_neg (by omega)]
      omega
    have hse : signExtend32 (readU32 val) = readU32 val := by
      unfold signExtend32
      rw [if_pos hVsmall]
    rw [hse] at hr hstart
    have hsm : (readU32 val * 12 + 8) % 18446744073709551616 =
        8 + 12 * readU32 val := by omega
    rw [hsm] at hr
    refine ⟨hVsmall, ?_, ?_⟩
    · have := congrArg MemBufferReader.offsets (Except.ok.inj hr).symm
      simp only at this
      rw [this, parseOffsets_length]
    · have := congrArg MemBufferReader.data (Except.ok.inj hr).symm
      simp only at this
      rw [this]
  · intro r i t
    simp only [MemBufferReader.intern_load_entry]
    split <;> simp

/-- Overwriting any one of the first 4 bytes (the `entry_count` field) with
a different byte changes the 32-bit value read from the front, and leaves
the remainder of the buffer untouched. -/
theorem set_count_byte (N : Nat) (hN : N < 2147483648) (rest : List Nat)
    (j c : Nat) (hj : j < 4) (hc : c < 256)
    (hne : c ≠ (u32le N ++ rest).getD j 0) :
    readU32 ((u32le N ++ rest).set j c) ≠ N ∧
    readU32 ((u32le N ++ rest).set j c) < 4294967296 ∧
    ((u32le N ++ rest).set j c).drop 4 = rest := by
  have e : u32le N ++ rest = (N % 256) :: (N / 256 % 256) ::
      (N / 65536 % 256) :: (N / 16777216 % 256) :: rest := rfl
  rw [e] at hne ⊢
  interval_cases j
  · simp only [List.set_cons_zero, List.getD_cons_zero] at hne ⊢
    refine ⟨?_, ?_, rfl⟩
    · show c + 256 * (N / 256 % 256) + 65536 * (N / 65536 % 256) +
        16777216 * (N / 16777216 % 256) ≠ N
      omega
    · show c + 256 * (N / 256 % 256) + 65536 * (N / 65536 % 256) +
        16777216 * (N / 16777216 % 256) < 4294967296
      omega
  · simp only [List.set_cons_succ, List.set_cons_zero, List.getD_cons_succ,
      List.getD_cons_zero] at hne ⊢
    refine ⟨?_, ?_, rfl⟩
    · show N % 256 + 256 * c + 65536 * (N / 65536 % 256) +
        16777216 * (N / 16777216 % 256) ≠ N
      omega
    · show N % 256 + 256 * c + 65536 * (N / 65536 % 256) +
        16777216 * (N / 16777216 % 256) < 4294967296
      omega
  · simp only [List.set_cons_succ, List.set_cons_zero, List.getD_cons_succ,
      List.getD_cons_zero] at hne ⊢
    refine ⟨?_, ?_, rfl⟩
    · show N % 256 + 256 * (N / 256 % 256) + 65536 * c +
        16777216 * (N / 16777216 % 256) ≠ N
      omega
    · show N % 256 + 256 * (N / 256 % 256) + 65536 * c +
        16777216 * (N / 16777216 % 256) < 4294967296
      omega
  · simp only [List.set_cons_succ, List.set_cons_zero, List.getD_cons_succ,
      List.getD_cons_zero] at hne ⊢
    refine ⟨?_, ?_, rfl⟩
    · show N % 256 + 256 * (N / 256 % 256) + 65536 * (N / 65536 % 256) +
        16777216 * c ≠ N
      omega
    · show N % 256 + 256 * (N / 256 % 256) + 65536 * (N / 65536 % 256) +
        16777216 * c < 4294967296
      omega

/-- Flipping a byte of the count field of `count ++ checksum ++ tail` makes
`MemBufferReader::new` reject the buffer: the stored checksum no longer
matches the modified count. -/
theorem new_set_count_byte (N : Nat) (hN : N < 2147483648) (tail : List Nat)
    (j c : Nat) (hj : j < 4) (hc : c < 256)
    (hne : c ≠ ((u32le N ++
      (u32le ((N % 4294967296 + 2231448834) % 4294967296) ++ tail))).getD j 0) :
    MemBufferReader.new ((u32le N ++
      (u32le ((N % 4294967296 + 2231448834) % 4294967296) ++ tail)).set j c) =
      .error .WrongFormat := by
  obtain ⟨hV1, hV2, hdrop⟩ := set_count_byte N hN _ j c hj hc hne
  have hCK : readU32 (((u32le N ++
      (u32le ((N % 4294967296 + 2231448834) % 4294967296) ++ tail)).set
        j c).drop 4) = (N % 4294967296 + 2231448834) % 4294967296 := by
    rw [hdrop, readU32_u32le_append]
    omega
  have hQ : (signExtend32 (readU32 (((u32le N ++
      (u32le ((N % 4294967296 + 2231448834) % 4294967296) ++ tail)).set
        j c).drop 4)) + 0x7AFECAFE) % 18446744073709551616 ≠
      signExtend32 (readU32 ((u32le N ++
      (u32le ((N % 4294967296 + 2231448834) % 4294967296) ++ tail)).set j c)) := by
    rw [hCK]
    exact checksum_mismatch N _ hN hV2 hV1
  rw [new_eq_ite, if_pos (Or.inr (Or.inr hQ))]

/-- C5: Corruption detection — on a finalized buffer of a well-formed
writer, changing any single byte of the 4-byte `entry_count` field makes
`MemBufferReader::new` fail with `WrongFormat`, and truncating the buffer
below its declared header size `8 + 12 * entry_count` always makes
`MemBufferReader::new` fail with `WrongFormat`. -/
theorem corruption_detection (w : MemBufferWriter) (hwf : writerWf w) :
    (∀ j c, j < 4 → c < 256 → c ≠ w.finalize.getD j 0 →
      MemBufferReader.new (w.finalize.set j c) = .error .WrongFormat) ∧
    (∀ m, m < 8 + 12 * w.types.length →
      MemBufferReader.new (w.finalize.take m) = .error .WrongFormat) := by
  obtain ⟨hl, hn, htypes, hbytes, hpay⟩ := hwf
  have hflen := finalize_length w hl
  have hNm : w.types.length % 4294967296 = w.types.length := by omega
  have hfzeq : w.finalize = u32le w.types.length ++
      (u32le ((w.types.length % 4294967296 + 2231448834) % 4294967296) ++
      (finalizeEntries w.types w.data 0 ++ w.data.flatten)) := by
    rw [finalize_eq, hNm]
  constructor
  · intro j c hj hc hne
    rw [hfzeq] at hne ⊢
    exact new_set_count_byte w.types.length hn _ j c hj hc hne
  · intro m hm
    by_cases h8 : m < 8
    · have hcond : (w.finalize.take m).length < 8 := by
        rw [List.length_take]
        omega
      rw [new_eq_ite, if_pos (Or.inl hcond)]
    · obtain ⟨k, rfl⟩ : ∃ k, m = k + 8 := ⟨m - 8, by omega⟩
      have htake : w.finalize.take (k + 8) = u32le w.types.length ++
          (u32le ((w.types.length % 4294967296 + 2231448834) % 4294967296) ++
          ((finalizeEntries w.types w.data 0 ++ w.data.flatten).take k)) := by
        rw [hfzeq]
        rfl
      have hr : readU32 (w.finalize.take (k + 8)) = w.types.length := by
        rw [htake, readU32_u32le_append]
        omega
      have hsign : signExtend32 w.types.length = w.types.length := by
        unfold signExtend32
        split <;> omega
      have hcond : (w.finalize.take (k + 8)).length <
          (signExtend32 (readU32 (w.finalize.take (k + 8))) * 12 + 8) %
            18446744073709551616 := by
        rw [hr, hsign, List.length_take]
        have hstart : (w.types.length * 12 + 8) % 18446744073709551616 =
            12 * w.types.length + 8 := by omega
        rw [hstart]
        omega
      rw [new_eq_ite, if_pos (Or.inr (Or.inl hcond))]

/-- The payload sub-slice taken at header entry `i` of a finalized buffer is
exactly the writer's i-th byte buffer. -/
theorem slice_at_entry (w : MemBufferWriter) (hwf : writerWf w) (i : Nat)
    (hi : i < w.types.length) :
    (w.data.flatten.drop (signExtend32 (sumLen (w.data.take i)))).take
      (signExtend32 (sumLen (w.data.take i) + (w.data.getD i []).length) -
        signExtend32 (sumLen (w.data.take i))) = w.data.getD i [] := by
  have hf := reader_entry_facts w hwf i hi
  have h2 := hf.2
  simp only [MemBufferReader.intern_load_entry, hf.1] at h2
  rw [if_neg (by simp)] at h2
  exact Except.ok.inj h2

/-- `MemBufferWriter::from` on a finalized buffer of a well-formed writer
reconstructs exactly the writer's `types` and `data` state. -/
theorem fromBytes_finalize (w : MemBufferWriter) (hwf : writerWf w) :
    MemBufferWriter.fromBytes w.finalize = .ok ⟨w.types, w.data⟩ := by
  have hl := hwf.1
  have hbl : (buildOffsets w.types w.data 0).length = w.types.length :=
    buildOffsets_length _ _ _ hl
  have htypes_eq : (buildOffsets w.types w.data 0).map
      (fun x => x.variable_type) = w.types := by
    apply List.ext_getElem (by simp [hbl])
    intro i h1 h2
    rw [List.getElem_map]
    have hgd : (buildOffsets w.types w.data 0)[i] =
        (buildOffsets w.types w.data 0).getD i ⟨⟨0, 0⟩, 0⟩ :=
      (List.getD_eq_getElem _ _ (by omega)).symm
    rw [hgd, (reader_entry_facts w hwf i h2).1]
    exact List.getD_eq_getElem _ _ h2
  have hdata_eq : (buildOffsets w.types w.data 0).map
      (fun x => (w.data.flatten.drop (signExtend32 x.pos.start)).take
        (signExtend32 x.pos.endp - signExtend32 x.pos.start)) = w.data := by
    apply List.ext_getElem (by simp [hbl, hl])
    intro i h1 h2
    have hi : i < w.types.length := by omega
    rw [List.getElem_map]
    have hgd : (buildOffsets w.types w.data 0)[i] =
        (buildOffsets w.types w.data 0).getD i ⟨⟨0, 0⟩, 0⟩ :=
      (List.getD_eq_getElem _ _ (by omega)).symm
    rw [hgd, (reader_entry_facts w hwf i hi).1]
    have hrw : w.data[i] = w.data.getD i [] := (List.getD_eq_getElem _ _ h2).symm
    rw [hrw]
    exact slice_at_entry w hwf i hi
  simp only [MemBufferWriter.fromBytes]
  rw [new_finalize w hwf]
  simp only [Except.map]
  rw [htypes_eq, hdata_eq]

/-- C7: Extension round-trip — `MemBufferWriter::from` on a finalized buffer
of a well-formed writer succeeds, and after `add_entry(x)` and `finalize()`
the new reader has one more entry, each original field still loads with its
original tag to its original payload bytes, and the new last field decodes
to `x`. -/
theorem extension_roundtrip (w : MemBufferWriter) (hwf : writerWf w)
    (x : FieldValue) (hx : x.wf)
    (hn1 : w.types.length + 1 < 2147483648)
    (hpay1 : sumLen w.data + x.encode.length < 2147483648) :
    ∃ w2, MemBufferWriter.fromBytes w.finalize = .ok w2 ∧
    ∃ r, MemBufferReader.new ((w2.add_value x).finalize) = .ok r ∧
      r.len = w.types.length + 1 ∧
      (∀ i, i < w.types.length →
        r.intern_load_entry i (w.types.getD i 0) = .ok (w.data.getD i [])) ∧
      decodesTo r w.types.length x := by
  refine ⟨⟨w.types, w.data⟩, fromBytes_finalize w hwf, ?_⟩
  have hwf2 : writerWf ⟨w.types ++ [x.tag], w.data ++ [x.encode]⟩ := by
    refine ⟨by simp [hwf.1], by simpa using hn1, ?_, ?_, ?_⟩
    · intro t ht
      rcases List.mem_append.mp ht with h | h
      · exact hwf.2.2.1 t h
      · simp only [List.mem_singleton] at h
        exact h ▸ tag_lt x
    · intro d hd
      rcases List.mem_append.mp hd with h | h
      · exact hwf.2.2.2.1 d h
      · simp only [List.mem_singleton] at h
        exact h ▸ encode_bytes_lt x hx
    · rw [sumLen_append, sumLen_cons, sumLen_nil]
      omega
  have hnf := new_finalize _ hwf2
  refine ⟨_, hnf, ?_, ?_, ?_⟩
  · show (buildOffsets (w.types ++ [x.tag]) (w.data ++ [x.encode]) 0).length =
      w.types.length + 1
    rw [buildOffsets_length _ _ _ hwf2.1]
    simp
  · intro i hi
    have hi2 : i < (w.types ++ [x.tag]).length := by simp; omega
    have hf := (reader_entry_facts ⟨w.types ++ [x.tag], w.data ++ [x.encode]⟩
      hwf2 i hi2).2
    rw [getD_append_left w.types [x.tag] i 0 hi] at hf
    rw [getD_append_left w.data [x.encode] i []
      (by have := hwf.1; omega)] at hf
    exact hf
  · have hi2 : w.types.length < (w.types ++ [x.tag]).length := by simp
    have hf := (reader_entry_facts ⟨w.types ++ [x.tag], w.data ++ [x.encode]⟩
      hwf2 w.types.length hi2).2
    rw [getD_concat_length w.types x.tag 0] at hf
    have hdlen : w.data.length = w.types.length := hwf.1.symm
    have hdl : (w.data ++ [x.encode]).getD w.types.length [] = x.encode := by
      rw [← hdlen]
      exact getD_concat_length w.data x.encode []
    rw [hdl] at hf
    exact decodesTo_of_intern _ _ _ hx hf

/-- A crafted 20-byte input: entry count 1 with a matching checksum, and a
single header entry claiming `start = 0`, `end = 100`, `type = Text`, with
an empty payload region — the end offset lies far beyond the payload. -/
def c8bytes : List Nat :=
  u32le 1 ++ u32le ((1 + 2231448834) % 4294967296) ++
  u32le 0 ++ u32le 100 ++ u32le 0

/-- The reader state `MemBufferReader::new` produces on `c8bytes`. -/
def c8reader : MemBufferReader := ⟨[⟨⟨0, 100⟩, 0⟩], []⟩

/-- C8 (counterexample): `MemBufferReader::new` accepts a byte slice whose
parsed header entry has an end offset (100) beyond the payload length (0) —
the constructor does not bounds-check `Position`s. -/
theorem new_accepts_out_of_bounds_position :
    MemBufferReader.new c8bytes = Except.ok c8reader ∧
    c8reader.payload_len <
      signExtend32 ((c8reader.offsets.getD 0 ⟨⟨0, 0⟩, 0⟩).pos.endp) := by
  constructor
  · rfl
  · decide

/-- C8 (amended): the reader does not itself bounds-check positions, but on
every buffer produced by `finalize` of a well-formed writer the accepted
header entries do satisfy `start ≤ end ≤ payload length` (after the `as
usize` casts), so `load_entry`'s payload sub-slice is in range there. -/
theorem positions_within_bounds_for_writer (w : MemBufferWriter)
    (hwf : writerWf w) :
    ∃ r, MemBufferReader.new w.finalize = .ok r ∧
      ∀ p ∈ r.offsets, signExtend32 p.pos.start ≤ signExtend32 p.pos.endp ∧
        signExtend32 p.pos.endp ≤ r.data.length := by
  refine ⟨_, new_finalize w hwf, ?_⟩
  intro p hp
  obtain ⟨i, hilt, hip⟩ := List.mem_iff_getElem.mp hp
  have hbl : (buildOffsets w.types w.data 0).length = w.types.length :=
    buildOffsets_length _ _ _ hwf.1
  have hilt2 : i < (buildOffsets w.types w.data 0).length := hilt
  have hi : i < w.types.length := by omega
  have hgd : (buildOffsets w.types w.data 0)[i] =
      (buildOffsets w.types w.data 0).getD i ⟨⟨0, 0⟩, 0⟩ :=
    (List.getD_eq_getElem _ _ hilt2).symm
  rw [← hip, hgd, (reader_entry_facts w hwf i hi).1]
  have hid : i < w.data.length := by have := hwf.1; omega
  have hPsucc := sumLen_take_succ w.data i hid
  have hPle1 : sumLen (w.data.take (i + 1)) ≤ sumLen w.data :=
    sumLen_take_le w.data (i + 1)
  have hpay := hwf.2.2.2.2
  have hs1 : signExtend32 (sumLen (w.data.take i)) = sumLen (w.data.take i) := by
    unfold signExtend32
    split <;> omega
  have hs2 : signExtend32 (sumLen (w.data.take i) + (w.data.getD i []).length) =
      sumLen (w.data.take i) + (w.data.getD i []).length := by
    unfold signExtend32
    split <;> omega
  show signExtend32 (sumLen (w.data.take i)) ≤
      signExtend32 (sumLen (w.data.take i) + (w.data.getD i []).length) ∧
    signExtend32 (sumLen (w.data.take i) + (w.data.getD i []).length) ≤
      w.data.flatten.length
  rw [hs1, hs2, length_flatten_eq_sumLen]
  omega

/-- C9 (counterexample): the `u64` scalar's tag is the literal `1021`,
which is not strictly below the sentinel `LastPreDefienedValue` (= 6). -/
theorem u64_tag_above_sentinel :
    get_mem_buffer_type_u64 = 1021 ∧
    ¬ get_mem_buffer_type_u64 < MemBufferTypes.LastPreDefienedValue.toI32 := by
  decide

/-- C9 (amended): every built-in tag except the `u64` scalar's — `&str`,
`&String`, `i32`, `&[u8]`, `&[u32]`, `&[u64]`, `MemBufferWriter` — is a
`MemBufferTypes` discriminant strictly below the sentinel
`LastPreDefienedValue`; the `u64` scalar's tag is `1021`, at or above the
sentinel, so the sentinel is not in fact the first tag free for
host-defined types. -/
theorem builtin_tags_below_sentinel_except_u64 :
    get_mem_buffer_type_str < MemBufferTypes.LastPreDefienedValue.toI32 ∧
    get_mem_buffer_type_string < MemBufferTypes.LastPreDefienedValue.toI32 ∧
    get_mem_buffer_type_i32 < MemBufferTypes.LastPreDefienedValue.toI32 ∧
    get_mem_buffer_type_vecu8 < MemBufferTypes.LastPreDefienedValue.toI32 ∧
    get_mem_buffer_type_vecu32 < MemBufferTypes.LastPreDefienedValue.toI32 ∧
    get_mem_buffer_type_vecu64 < MemBufferTypes.LastPreDefienedValue.toI32 ∧
    get_mem_buffer_type_writer < MemBufferTypes.LastPreDefienedValue.toI32 ∧
    get_mem_buffer_type_u64 = 1021 ∧
    MemBufferTypes.LastPreDefienedValue.toI32 ≤ get_mem_buffer_type_u64 := by
  decide

theorem roundtrip_single_entry_witness :
    (FieldValue.str [72, 105]).wf ∧
    (FieldValue.str [72, 105]).encode.length < 2147483648 ∧
    ∃ r, MemBufferReader.new
        ((MemBufferWriter.new.add_value (FieldValue.str [72, 105])).finalize) =
        .ok r ∧ r.len = 1 ∧ decodesTo r 0 (FieldValue.str [72, 105]) :=
  ⟨by decide, by decide, roundtrip_single_entry _ (by decide) (by decide)⟩

theorem order_preservation_witness :
    (∀ v ∈ [FieldValue.str [72], FieldValue.int32 5], v.wf) ∧
    ([FieldValue.str [72], FieldValue.int32 5].length < 2147483648) ∧
    (sumLen ([FieldValue.str [72], FieldValue.int32 5].map FieldValue.encode) <
      2147483648) ∧
    ∃ r, MemBufferReader.new
        (writerOf [FieldValue.str [72], FieldValue.int32 5]).finalize = .ok r ∧
      r.len = [FieldValue.str [72], FieldValue.int32 5].length ∧
      ∀ i, i < [FieldValue.str [72], FieldValue.int32 5].length →
        decodesTo r i ([FieldValue.str [72], FieldValue.int32 5].getD i
          (.str [])) ∧
        (r.offsets.getD i ⟨⟨0, 0⟩, 0⟩).pos.start =
          sumLen (([FieldValue.str [72], FieldValue.int32 5].map
            FieldValue.encode).take i) ∧
        (r.offsets.getD i ⟨⟨0, 0⟩, 0⟩).pos.endp =
          sumLen (([FieldValue.str [72], FieldValue.int32 5].map
            FieldValue.encode).take i) +
            ([FieldValue.str [72], FieldValue.int32 5].getD i
              (.str [])).encode.length :=
  ⟨by decide, by decide, by decide,
    order_preservation _ (by decide) (by decide) (by decide)⟩

theorem type_mismatch_detection_witness :
    (0 < (MemBufferReader.mk [⟨⟨0, 0⟩, 0⟩] []).offsets.length) ∧
    ((MemBufferReader.mk [⟨⟨0, 0⟩, 0⟩] []).offsets.getD 0
      ⟨⟨0, 0⟩, 0⟩).variable_type = 0 ∧ (0 : Nat) ≠ 1 ∧
    ((MemBufferReader.mk [⟨⟨0, 0⟩, 0⟩] []).intern_load_entry 0 1 =
      .error (.FieldTypeError 0 1) ∧
    ((0 : Nat) ≠ get_mem_buffer_type_writer →
      (MemBufferReader.mk [⟨⟨0, 0⟩, 0⟩] []).load_recursive_reader 0 =
        .error (.FieldTypeError 0 get_mem_buffer_type_writer))) :=
  ⟨by decide, by decide, by decide,
    type_mismatch_detection _ 0 0 1 (by decide) (by decide) (by decide)⟩

theorem new_header_validation_witness :
    (MemBufferWriter.new.finalize.length < 9223372036854775808) ∧
    (∀ b ∈ MemBufferWriter.new.finalize, b < 256) ∧
    ((MemBufferReader.new MemBufferWriter.new.finalize =
        .error .WrongFormat ↔
      (MemBufferWriter.new.finalize.length < 8 ∨
       MemBufferWriter.new.finalize.length <
         signExtend32 (readU32 MemBufferWriter.new.finalize) * 12 + 8 ∨
       (signExtend32 (readU32 (MemBufferWriter.new.finalize.drop 4)) +
         0x7AFECAFE) % 18446744073709551616 ≠
         signExtend32 (readU32 MemBufferWriter.new.finalize))) ∧
    (∀ r, MemBufferReader.new MemBufferWriter.new.finalize = .ok r →
      readU32 MemBufferWriter.new.finalize < 2147483648 ∧
      r.offsets.length = readU32 MemBufferWriter.new.finalize ∧
      r.data = MemBufferWriter.new.finalize.drop
        (8 + 12 * readU32 MemBufferWriter.new.finalize)) ∧
    (∀ (r : MemBufferReader) (i t : Nat),
      r.intern_load_entry i t ≠ .error .WrongFormat)) :=
  ⟨by decide, by decide,
    new_header_validation _ (by decide) (by decide)⟩

theorem corruption_detection_witness :
    writerWf (MemBufferWriter.new.add_value (FieldValue.str [65])) ∧
    ((∀ j c, j < 4 → c < 256 →
      c ≠ (MemBufferWriter.new.add_value (FieldValue.str [65])).finalize.getD
        j 0 →
      MemBufferReader.new
        ((MemBufferWriter.new.add_value (FieldValue.str [65])).finalize.set
          j c) = .error .WrongFormat) ∧
    (∀ m, m < 8 + 12 *
        (MemBufferWriter.new.add_value (FieldValue.str [65])).types.length →
      MemBufferReader.new
        ((MemBufferWriter.new.add_value (FieldValue.str [65])).finalize.take
          m) = .error .WrongFormat)) :=
  ⟨by decide, corruption_detection _ (by decide)⟩

theorem finalize_deterministic_witness :
    (MemBufferWriter.mk [0] [[65]]).types = (MemBufferWriter.mk [0] [[65]]).types ∧
    (MemBufferWriter.mk [0] [[65]]).data = (MemBufferWriter.mk [0] [[65]]).data ∧
    (MemBufferWriter.mk [0] [[65]]).finalize =
      (MemBufferWriter.mk [0] [[65]]).finalize :=
  ⟨rfl, rfl, finalize_deterministic _ _ rfl rfl⟩

theorem extension_roundtrip_witness :
    writerWf (MemBufferWriter.mk [0] [[65]]) ∧
    (FieldValue.int32 7).wf ∧
    ((MemBufferWriter.mk [0] [[65]]).types.length + 1 < 2147483648) ∧
    (sumLen (MemBufferWriter.mk [0] [[65]]).data +
      (FieldValue.int32 7).encode.length < 2147483648) ∧
    (∃ w2, MemBufferWriter.fromBytes (MemBufferWriter.mk [0] [[65]]).finalize =
        .ok w2 ∧
    ∃ r, MemBufferReader.new ((w2.add_value (FieldValue.int32 7)).finalize) =
        .ok r ∧
      r.len = (MemBufferWriter.mk [0] [[65]]).types.length + 1 ∧
      (∀ i, i < (MemBufferWriter.mk [0] [[65]]).types.length →
        r.intern_load_entry i ((MemBufferWriter.mk [0] [[65]]).types.getD i 0) =
          .ok ((MemBufferWriter.mk [0] [[65]]).data.getD i [])) ∧
      decodesTo r (MemBufferWriter.mk [0] [[65]]).types.length
        (FieldValue.int32 7)) :=
  ⟨by decide, by decide, by decide, by decide,
    extension_roundtrip _ (by decide) _ (by decide) (by decide) (by decide)⟩

theorem positions_within_bounds_for_writer_witness :
    writerWf (MemBufferWriter.mk [0] [[65]]) ∧
    ∃ r, MemBufferReader.new (MemBufferWriter.mk [0] [[65]]).finalize =
        .ok r ∧
      ∀ p ∈ r.offsets, signExtend32 p.pos.start ≤ signExtend32 p.pos.endp ∧
        signExtend32 p.pos.endp ≤ r.data.length :=
  ⟨by decide, positions_within_bounds_for_writer _ (by decide)⟩
